import Mathlib

/-!
# Verification of the FCP_AI_GOLANG_RG core (src/main.go)

A shallow embedding, in Lean 4, of the two components of `src/main.go`:

* `CsvToSlice` (src/main.go lines 40-64), together with the behaviour of the
  underlying `encoding/csv` reader it instantiates with default options
  (`Comma = ','`, `LazyQuotes = false`, `TrimLeadingSpace = false`,
  `FieldsPerRecord = 0`, no comment rune);
* `ConnectAIModel` (src/main.go lines 67-115), with the HTTP transport
  (`c.Client.Do`) treated as an opaque per-attempt oracle, exactly as the
  design document treats the remote endpoint.

Machine floats (the `estimated_time` JSON number, decoded by Go as `float64`)
are modelled as exact rationals; the only operation the program performs on
them is the conversion `time.Duration(estimatedTime)`, i.e. truncation toward
zero to an integer, which is modelled by `ratTrunc`.
-/

namespace Tapas

/-- JSON values, as produced by Go's `encoding/json` unmarshalling into
`interface\x7b\x7d`: numbers are modelled as exact rationals. -/
inductive Json where
  | null : Json
  | bool (b : Bool) : Json
  | num (q : ℚ) : Json
  | str (s : String) : Json
  | arr (xs : List Json) : Json
  | obj (kvs : List (String × Json)) : Json

/-- A Go `map[string][]string` (the column-oriented table), modelled as an
association list.  Go maps are unordered; the list order is merely the
representation order and all observations below go through `lookupA`/keys. -/
abbrev Table := List (String × List String)

/-- First-match lookup in an association list (well-defined picture of a Go
map read `m[k]`, given that `setAssoc` keeps keys unique). -/
def lookupA {α : Type} : List (String × α) → String → Option α
  | [], _ => none
  | (k', v) :: rest, k => if k' = k then some v else lookupA rest k

/-- Go map write `m[k] = v`: replace the binding if the key is present,
otherwise add a fresh binding. -/
def setAssoc {α : Type} : List (String × α) → String → α → List (String × α)
  | [], k, v => [(k, v)]
  | (k', v') :: rest, k, v =>
    if k' = k then (k, v) :: rest else (k', v') :: setAssoc rest k v

/-! ## The `encoding/csv` reader (default configuration)

`CsvToSlice` runs `csv.NewReader(strings.NewReader(data)).ReadAll()`.
The reader's per-line preprocessing (`readLine`) normalises `\r\n` to `\n`
and drops a single `\r` sitting immediately before end of input; since line
chunks are exactly the segments ending in `\n`, this equals the global
stream transformation `normalizeCRLF` followed by `dropTrailingCR`.  -/

/-- Replace every `\r\n` pair by `\n` (Go `csv.Reader.readLine` end-of-line
normalisation, applied per line chunk; pairs never span chunks). -/
def normalizeCRLF : List Char → List Char
  | '\r' :: '\n' :: rest => '\n' :: normalizeCRLF rest
  | c :: rest => c :: normalizeCRLF rest
  | [] => []

/-- Drop a final `\r` directly before end of input ("for backwards
compatibility, drop trailing `\r` before EOF" in `readLine`). -/
def dropTrailingCR (l : List Char) : List Char :=
  if l.getLast? = some '\r' then l.dropLast else l

/-- The whole stream preprocessing performed by `csv.Reader.readLine`. -/
def preprocess (data : String) : List Char :=
  dropTrailingCR (normalizeCRLF data.toList)

/-- Errors reported by the `encoding/csv` reader (positions omitted), plus
the fuel marker `outOfFuel`, which `readAll_ne_outOfFuel` proves unreachable
at the fuel supplied by `readAll`. -/
inductive CsvErr where
  | bareQuote : CsvErr
  | quote : CsvErr
  | fieldCount : CsvErr
  | outOfFuel : CsvErr
deriving DecidableEq

/-- Scan a non-quoted field: everything up to the next `,`, `\n` or end of
input.  Returns the field, the terminator reached (if any) and the rest of
the stream after the terminator. -/
def scanBare : List Char → List Char × Option Char × List Char
  | [] => ([], none, [])
  | c :: rest =>
    if c = ',' then ([], some ',', rest)
    else if c = '\n' then ([], some '\n', rest)
    else
      let r := scanBare rest
      (c :: r.1, r.2.1, r.2.2)

/-- Scan a quoted field after its opening `"`.  `""` is an escaped quote;
a closing `"` must be followed by `,` (next field), `\n` or end of input
(end of record) — anything else is `ErrQuote`, as is end of input before the
closing quote.  Returns the field, whether the record ended, and the rest. -/
def scanQuoted : List Char → Except CsvErr (List Char × Bool × List Char)
  | [] => .error .quote
  | c :: rest =>
    if c = '"' then
      match rest with
      | [] => .ok ([], true, [])
      | c2 :: rest2 =>
        if c2 = '"' then
          match scanQuoted rest2 with
          | .error e => .error e
          | .ok (f, e, r) => .ok ('"' :: f, e, r)
        else if c2 = ',' then .ok ([], false, rest2)
        else if c2 = '\n' then .ok ([], true, rest2)
        else .error .quote
    else
      match scanQuoted rest with
      | .error e => .error e
      | .ok (f, e, r) => .ok (c :: f, e, r)

/-- Parse the fields of one record (`csv.Reader.readRecord`'s `parseField`
loop): a field starting with `"` is quoted; otherwise it is bare, and must
not contain `"` anywhere (`ErrBareQuote`).  The fuel bounds the number of
fields; each recursive call consumes at least the separating comma, so fuel
`s.length + 1` always suffices. -/
def parseFieldsF : Nat → List Char → Except CsvErr (List (List Char) × List Char)
  | 0, _ => .error .outOfFuel
  | fuel + 1, s =>
    if s.head? = some '"' then
      match scanQuoted s.tail with
      | .error e => .error e
      | .ok (f, true, r) => .ok ([f], r)
      | .ok (f, false, r) =>
        match parseFieldsF fuel r with
        | .error e => .error e
        | .ok (fs, r') => .ok (f :: fs, r')
    else
      let b := scanBare s
      if b.1.contains '"' then .error .bareQuote
      else
        match b.2.1 with
        | some t =>
          if t = ',' then
            match parseFieldsF fuel b.2.2 with
            | .error e => .error e
            | .ok (fs, r') => .ok (b.1 :: fs, r')
          else .ok ([b.1], b.2.2)
        | none => .ok ([b.1], b.2.2)

/-- Skip empty lines before a record (`readRecord` skips lines whose length
equals their newline length; at a record boundary these are exactly the
leading `\n` characters). -/
def skipEmptyLines : List Char → List Char
  | [] => []
  | c :: rest => if c = '\n' then skipEmptyLines rest else c :: rest

/-- `csv.Reader.ReadAll`'s loop: read records until end of input; the first
record fixes `FieldsPerRecord`, every later record must have the same field
count or reading stops with `ErrFieldCount`.  Fuel bounds the number of
records; each record consumes at least one character. -/
def readAllLoopF : Nat → List Char → Option Nat → Except CsvErr (List (List String))
  | 0, _, _ => .error .outOfFuel
  | fuel + 1, s, expected =>
    match skipEmptyLines s with
    | [] => .ok []
    | c :: cs =>
      match parseFieldsF ((c :: cs).length + 1) (c :: cs) with
      | .error e => .error e
      | .ok (fs, rest) =>
        let record := fs.map (fun f => String.mk f)
        match expected with
        | some n =>
          if record.length = n then
            match readAllLoopF fuel rest (some n) with
            | .error e => .error e
            | .ok recs => .ok (record :: recs)
          else .error .fieldCount
        | none =>
          match readAllLoopF fuel rest (some record.length) with
          | .error e => .error e
          | .ok recs => .ok (record :: recs)

/-- `reader.ReadAll()` on `strings.NewReader(data)` with the default reader
configuration (src/main.go lines 41-42). -/
def readAll (data : String) : Except CsvErr (List (List String)) :=
  readAllLoopF ((preprocess data).length + 1) (preprocess data) none

/-- The tokenizer alone, without the `FieldsPerRecord` uniformity check:
used to formalise claims that speak about "the rows of the input"
independently of whether `ReadAll` accepts them. -/
def tokenizeAllF : Nat → List Char → Except CsvErr (List (List String))
  | 0, _ => .error .outOfFuel
  | fuel + 1, s =>
    match skipEmptyLines s with
    | [] => .ok []
    | c :: cs =>
      match parseFieldsF ((c :: cs).length + 1) (c :: cs) with
      | .error e => .error e
      | .ok (fs, rest) =>
        match tokenizeAllF fuel rest with
        | .error e => .error e
        | .ok recs => .ok (fs.map (fun f => String.mk f) :: recs)

/-- Tokenization of an input string into records, without the uniform
field-count check. -/
def tokenize (data : String) : Except CsvErr (List (List String)) :=
  tokenizeAllF ((preprocess data).length + 1) (preprocess data)

/-! ## `CsvToSlice` (src/main.go lines 40-64) -/

/-- Errors returned by `CsvToSlice`: a propagated reader error (line 44) or
`errors.New("no data found")` (line 48). -/
inductive TableErr where
  | csv (e : CsvErr) : TableErr
  | noData : TableErr
deriving DecidableEq

/-- The inner loop of `CsvToSlice` for one header column `i`
(src/main.go lines 56-60): append `record[i]` for each data row that has at
least `i+1` fields. -/
def buildColumn (i : Nat) (rows : List (List String)) : List String :=
  rows.filterMap (fun record => record[i]?)

/-- The outer loop of `CsvToSlice` (src/main.go lines 54-61):
`for i, col := range header \x7b result[col] = ... \x7d`, iterating over the
header left to right with the running map `acc`. -/
def buildTableAux (rows : List (List String)) : Nat → List String → Table → Table
  | _, [], acc => acc
  | i, col :: hs, acc => buildTableAux rows (i + 1) hs (setAssoc acc col (buildColumn i rows))

/-- `CsvToSlice` (src/main.go lines 40-64). -/
def csvToSlice (data : String) : Except TableErr Table :=
  match readAll data with
  | .error e => .error (.csv e)
  | .ok records =>
    match records with
    | [] => .error .noData
    | header :: rows => .ok (buildTableAux rows 0 header [])

/-- The index of the last occurrence of `name` in `hdr`, counting from
offset `i`: the specification of which column survives the Go map
overwrites in `CsvToSlice`'s header loop. -/
def lastIdxFrom (name : String) : Nat → List String → Option Nat
  | _, [] => none
  | i, col :: hs =>
    match lastIdxFrom name (i + 1) hs with
    | some j => some j
    | none => if col = name then some i else none

/-! ## JSON encoding and decoding of the wire payloads

`encoding/json` conventions modelled here: unmarshalling into
`map[string]interface\x7b\x7d` requires a top-level object and keeps the last
of duplicate keys; unmarshalling into a struct matches keys to the (all
lower-case) field tags, ignores unknown keys, leaves missing fields at their
zero value, decodes `null` as a zero value, and rejects fractional numbers
for `int` fields.  (Go additionally accepts a case-insensitive tag match;
the model matches tags exactly, which agrees with Go on every payload the
program itself produces.) -/

/-- The request payload (src/main.go lines 26-29). -/
structure Inputs where
  table : Table
  query : String
deriving DecidableEq

/-- The response shape (src/main.go lines 32-37). -/
structure Response where
  answer : String
  coordinates : List (List ℤ)
  cells : List String
  aggregator : String
deriving DecidableEq

/-- The zero value of `Response`, the starting point of struct decoding. -/
def Response.zero : Response := ⟨"", [], [], ""⟩

/-- Last-wins key lookup, as in Go's unmarshalling of duplicate JSON keys. -/
def lookupLast (kvs : List (String × Json)) (k : String) : Option Json :=
  (kvs.filter (fun p => p.1 = k)).getLast?.map (fun p => p.2)

/-- Decode a JSON value into a Go `string`. -/
def decodeString : Json → Except String String
  | .str s => .ok s
  | .null => .ok ""
  | _ => .error "cannot unmarshal value into string"

/-- Decode a JSON value into a Go `int` (fractional numbers are rejected). -/
def decodeInt : Json → Except String ℤ
  | .num q => if q.den = 1 then .ok q.num else .error "cannot unmarshal fractional number into int"
  | .null => .ok 0
  | _ => .error "cannot unmarshal value into int"

/-- Decode a JSON value into a Go slice, element by element. -/
def decodeList {α : Type} (f : Json → Except String α) : Json → Except String (List α)
  | .arr xs => xs.mapM f
  | .null => .ok []
  | _ => .error "cannot unmarshal value into slice"

/-- Decode a JSON value into `Response`
(`json.NewDecoder(resp.Body).Decode(&aiResponse)`, src/main.go line 92). -/
def decodeResponseJson : Json → Except String Response
  | .obj kvs =>
    kvs.foldlM (fun acc kv =>
      match kv.1 with
      | "answer" => (decodeString kv.2).map (fun a => ⟨a, acc.coordinates, acc.cells, acc.aggregator⟩)
      | "coordinates" => (decodeList (decodeList decodeInt) kv.2).map
          (fun c => ⟨acc.answer, c, acc.cells, acc.aggregator⟩)
      | "cells" => (decodeList decodeString kv.2).map
          (fun c => ⟨acc.answer, acc.coordinates, c, acc.aggregator⟩)
      | "aggregator" => (decodeString kv.2).map
          (fun a => ⟨acc.answer, acc.coordinates, acc.cells, a⟩)
      | _ => .ok acc) Response.zero
  | .null => .ok Response.zero
  | _ => .error "cannot unmarshal value into Response"

/-- `json.Marshal(payload)` (src/main.go line 69): struct fields in
declaration order.  Go emits map keys in sorted byte order; the model keeps
the representation order of the association list, which carries the same
content. -/
def encodeInputs (p : Inputs) : Json :=
  .obj [("table", .obj (p.table.map (fun kv => (kv.1, .arr (kv.2.map .str))))),
        ("query", .str p.query)]

/-- Decode a JSON value into a Go `map[string][]string`. -/
def decodeTable : Json → Except String Table
  | .obj kvs =>
    kvs.foldlM (fun acc kv => (decodeList decodeString kv.2).map (setAssoc acc kv.1)) []
  | .null => .ok []
  | _ => .error "cannot unmarshal value into map"

/-- Decode a JSON value into `Inputs` (the deserialization direction of the
wire payload round trip). -/
def decodeInputs : Json → Except String Inputs
  | .obj kvs =>
    kvs.foldlM (fun acc kv =>
      match kv.1 with
      | "table" => (decodeTable kv.2).map (fun t => ⟨t, acc.query⟩)
      | "query" => (decodeString kv.2).map (fun q => ⟨acc.table, q⟩)
      | _ => .ok acc) ⟨[], ""⟩
  | .null => .ok ⟨[], ""⟩
  | _ => .error "cannot unmarshal value into Inputs"

/-! ## `ConnectAIModel` (src/main.go lines 67-115)

The HTTP transport `c.Client.Do` is modelled as an oracle mapping the
attempt number and the request value to either a transport error or a
response; the remote endpoint is an external collaborator with a documented
contract.  A response body is a byte string `raw` together with `json?`,
the (abstractly supplied) result of parsing `raw` as JSON — `none` when
`raw` is not valid JSON.  Reading a body a second time yields nothing:
src/main.go reads `resp.Body` at line 100, and the `ReadAll` at line 110
therefore returns the empty string when coming from the 503 branch. -/

/-- An HTTP request value (`http.NewRequest` at src/main.go lines 74-79). -/
structure HttpRequest where
  method : String
  url : String
  body : Json
  headers : List (String × String)

/-- An HTTP response body: the raw bytes and their parse as JSON. -/
structure HttpBody where
  raw : String
  json? : Option Json

/-- `json.Unmarshal(body, &result)` into `map[string]interface\x7b\x7d`
(src/main.go line 101): succeeds exactly on a top-level JSON object. -/
def HttpBody.objMap : HttpBody → Option (List (String × Json))
  | ⟨_, some (.obj kvs)⟩ => some kvs
  | _ => none

/-- `json.NewDecoder(resp.Body).Decode(&aiResponse)` (src/main.go line 92). -/
def decodeResponse (b : HttpBody) : Except String Response :=
  match b.json? with
  | none => .error "invalid json"
  | some j => decodeResponseJson j

/-- The numeric `estimated_time` of a 503 body, when present: `some t` iff
the body unmarshals to a JSON object whose (last) `estimated_time` entry is
a number — the condition of src/main.go lines 101-102. -/
def estOf (b : HttpBody) : Option ℚ :=
  match b.objMap with
  | some kvs =>
    match lookupLast kvs "estimated_time" with
    | some (.num t) => some t
    | _ => none
  | none => none

/-- One outcome of `c.Client.Do(req)`: a transport-level error or a
response with a status code and a body. -/
inductive DoResult where
  | transportErr (msg : String) : DoResult
  | resp (status : Nat) (body : HttpBody) : DoResult

/-- The errors `ConnectAIModel` returns (src/main.go lines 86, 93, 111 and
114): a transport error, a 200-body decode error, the terminal
status/body error, and the exhausted-retries error. -/
inductive ConnErr where
  | transport (msg : String) : ConnErr
  | decode (msg : String) : ConnErr
  | status (code : Nat) (body : String) : ConnErr
  | maxRetries : ConnErr
deriving DecidableEq

/-- Truncation of a rational toward zero: the effect of Go's conversion
`time.Duration(estimatedTime)` from `float64` to an integer. -/
def ratTrunc (q : ℚ) : ℤ := q.num.tdiv q.den

/-- `time.Sleep(time.Duration(estimatedTime) * time.Second)`
(src/main.go line 104), in nanoseconds: the float is truncated to a whole
number first, then scaled by `time.Second = 10^9`. -/
def goSleepNanos (t : ℚ) : ℤ := ratTrunc t * 1000000000

/-- The observable outcome of a `ConnectAIModel` run: its return value, the
requests passed to `c.Client.Do` in order, and the nanosecond durations
slept before each retry. -/
structure ConnectTrace where
  result : Except ConnErr Response
  requests : List HttpRequest
  sleeps : List ℤ

/-- The retry loop of `ConnectAIModel` (src/main.go lines 82-114), started
at attempt index `i` with `fuel` iterations left (`maxRetries - i`).  With
`fuel = 0` the `for` loop is over and line 114 returns the max-retries
error. -/
def connectLoop (oracle : Nat → HttpRequest → DoResult) (req : HttpRequest) :
    Nat → Nat → ConnectTrace
  | _, 0 => ⟨.error .maxRetries, [], []⟩
  | i, fuel + 1 =>
    match oracle i req with
    | .transportErr m => ⟨.error (.transport m), [req], []⟩
    | .resp status body =>
      if status = 200 then
        match decodeResponse body with
        | .ok r => ⟨.ok r, [req], []⟩
        | .error m => ⟨.error (.decode m), [req], []⟩
      else if status = 503 then
        match body.objMap with
        | some kvs =>
          match lookupLast kvs "estimated_time" with
          | some (.num t) =>
            let rest := connectLoop oracle req (i + 1) fuel
            ⟨rest.result, req :: rest.requests, goSleepNanos t :: rest.sleeps⟩
          | _ => ⟨.error (.status status ""), [req], []⟩
        | none => ⟨.error (.status status ""), [req], []⟩
      else ⟨.error (.status status body.raw), [req], []⟩

/-- `maxRetries` (src/main.go line 82). -/
def maxRetries : Nat := 10

/-- The fixed inference endpoint URL (src/main.go line 68). -/
def tapasURL : String :=
  "https://api-inference.huggingface.co/models/google/tapas-base-finetuned-wtq"

/-- The request value built once before the loop
(src/main.go lines 69-79). -/
def mkRequest (payload : Inputs) (token : String) : HttpRequest :=
  ⟨"POST", tapasURL, encodeInputs payload,
   [("Authorization", "Bearer " ++ token), ("Content-Type", "application/json")]⟩

/-- `ConnectAIModel` (src/main.go lines 67-115) against the transport
oracle. -/
def connectAIModel (oracle : Nat → HttpRequest → DoResult) (payload : Inputs)
    (token : String) : ConnectTrace :=
  connectLoop oracle (mkRequest payload token) 0 maxRetries

/-- A response is "503 with a numeric `estimated_time` of value `t`": the
condition under which src/main.go lines 98-107 sleep and retry. -/
def Is503Retry (d : DoResult) (t : ℚ) : Prop :=
  ∃ body kvs, d = .resp 503 body ∧ body.objMap = some kvs ∧
    lookupLast kvs "estimated_time" = some (.num t)

/-! ## Association-list lemmas -/

theorem lookupA_setAssoc {α : Type} (m : List (String × α)) (k a : String) (v : α) :
    lookupA (setAssoc m k v) a = if a = k then some v else lookupA m a := by
  induction m with
  | nil =>
    by_cases h : a = k
    · simp [setAssoc, lookupA, h]
    · simp [setAssoc, lookupA, h, Ne.symm h]
  | cons hd tl ih =>
    obtain ⟨k', v'⟩ := hd
    by_cases hk : k' = k
    · subst hk
      by_cases h : a = k'
      · simp [setAssoc, lookupA, h]
      · simp [setAssoc, lookupA, h, Ne.symm h]
    · by_cases h : a = k'
      · subst h
        simp [setAssoc, lookupA, hk]
      · simp [setAssoc, lookupA, hk, Ne.symm h, ih]

theorem mem_keys_setAssoc {α : Type} (m : List (String × α)) (k a : String) (v : α) :
    a ∈ (setAssoc m k v).map Prod.fst ↔ a ∈ m.map Prod.fst ∨ a = k := by
  induction m with
  | nil => simp [setAssoc]
  | cons hd tl ih =>
    obtain ⟨k', v'⟩ := hd
    by_cases hk : k' = k <;> simp [setAssoc, hk, ih] <;> tauto

theorem mem_setAssoc {α : Type} {m : List (String × α)} {k : String} {v : α}
    {p : String × α} (hp : p ∈ setAssoc m k v) : p ∈ m ∨ p = (k, v) := by
  induction m with
  | nil => simpa [setAssoc] using hp
  | cons hd tl ih =>
    obtain ⟨k', v'⟩ := hd
    by_cases hk : k' = k
    · simp only [setAssoc, if_pos hk, List.mem_cons] at hp
      rcases hp with h | h
      · right; exact h
      · left; exact List.mem_cons_of_mem _ h
    · simp only [setAssoc, if_neg hk, List.mem_cons] at hp
      rcases hp with h | h
      · left; simp [h]
      · rcases ih h with h' | h'
        · left; exact List.mem_cons_of_mem _ h'
        · right; exact h'

/-! ## Lemmas about the table-building loop -/

theorem lastIdxFrom_eq_none {name : String} :
    ∀ {i : Nat} {hdr : List String}, lastIdxFrom name i hdr = none ↔ name ∉ hdr := by
  intro i hdr
  induction hdr generalizing i with
  | nil => simp [lastIdxFrom]
  | cons col hs ih =>
    simp only [lastIdxFrom]
    rcases h : lastIdxFrom name (i + 1) hs with _ | j
    · have hn : name ∉ hs := ih.mp h
      by_cases hc : col = name
      · simp [hc, hn]
      · simp [hc, hn, Ne.symm hc]
    · have : ¬ (name ∉ hs) := by
        intro hnot
        rw [ih.mpr hnot] at h
        exact Option.noConfusion h
      simp only [List.mem_cons]
      constructor
      · intro he; exact Option.noConfusion he
      · intro hnot
        exact absurd (fun hm => hnot (Or.inr hm)) this

theorem lookupA_buildTableAux (rows : List (List String)) (name : String) :
    ∀ (hdr : List String) (i : Nat) (acc : Table),
      lookupA (buildTableAux rows i hdr acc) name =
        match lastIdxFrom name i hdr with
        | some j => some (buildColumn j rows)
        | none => lookupA acc name := by
  intro hdr
  induction hdr with
  | nil => intro i acc; simp [buildTableAux, lastIdxFrom]
  | cons col hs ih =>
    intro i acc
    simp only [buildTableAux, lastIdxFrom, ih]
    rcases h : lastIdxFrom name (i + 1) hs with _ | j
    · simp only [h]
      by_cases hc : col = name
      · subst hc
        simp [lookupA_setAssoc]
      · simp [hc, lookupA_setAssoc, Ne.symm hc]
    · simp [h]

theorem mem_keys_buildTableAux (rows : List (List String)) (name : String) :
    ∀ (hdr : List String) (i : Nat) (acc : Table),
      name ∈ (buildTableAux rows i hdr acc).map Prod.fst ↔
        name ∈ hdr ∨ name ∈ acc.map Prod.fst := by
  intro hdr
  induction hdr with
  | nil => intro i acc; simp [buildTableAux]
  | cons col hs ih =>
    intro i acc
    simp only [buildTableAux, ih, mem_keys_setAssoc, List.mem_cons]
    tauto

theorem mem_buildTableAux {rows : List (List String)} :
    ∀ {hdr : List String} {i : Nat} {acc : Table} {p : String × List String},
      p ∈ buildTableAux rows i hdr acc →
        p ∈ acc ∨ ∃ j, p.2 = buildColumn j rows ∧ i ≤ j ∧ j < i + hdr.length := by
  intro hdr
  induction hdr with
  | nil => intro i acc p hp; left; simpa [buildTableAux] using hp
  | cons col hs ih =>
    intro i acc p hp
    rcases ih (by simpa [buildTableAux] using hp) with h | ⟨j, hj, hij, hjlt⟩
    · rcases mem_setAssoc h with h' | h'
      · left; exact h'
      · right
        exact ⟨i, by rw [h'], le_refl i, by simp only [List.length_cons]; omega⟩
    · right
      exact ⟨j, hj, le_trans (Nat.le_succ i) hij, by simp only [List.length_cons]; omega⟩

/-! ## Lemmas about column lengths -/

theorem buildColumn_length_le (i : Nat) (rows : List (List String)) :
    (buildColumn i rows).length ≤ rows.length := by
  simpa [buildColumn] using List.length_filterMap_le (fun record => record[i]?) rows

theorem buildColumn_length_eq {i : Nat} {rows : List (List String)}
    (h : ∀ r ∈ rows, i < r.length) : (buildColumn i rows).length = rows.length := by
  induction rows with
  | nil => rfl
  | cons r rs ih =>
    have hr : i < r.length := h r (List.mem_cons_self r rs)
    have : r[i]? = some (r.get ⟨i, hr⟩) := List.getElem?_eq_getElem hr
    simp only [buildColumn, List.filterMap_cons, this]
    simpa [buildColumn] using ih (fun r' hr' => h r' (List.mem_cons_of_mem _ hr'))

/-! ## Lemmas about the reader loop -/

theorem readAllLoopF_some_length :
    ∀ (fuel : Nat) (s : List Char) (n : Nat) (recs : List (List String)),
      readAllLoopF fuel s (some n) = .ok recs → ∀ r ∈ recs, r.length = n := by
  intro fuel
  induction fuel with
  | zero => intro s n recs h; simp [readAllLoopF] at h
  | succ fuel ih =>
    intro s n recs h
    simp only [readAllLoopF] at h
    rcases hsk : skipEmptyLines s with _ | ⟨c, cs⟩ <;> rw [hsk] at h <;> simp only [] at h
    · simp only [Except.ok.injEq] at h
      subst h; intro r hr; exact absurd hr (List.not_mem_nil r)
    · rcases hp : parseFieldsF ((c :: cs).length + 1) (c :: cs) with e | ⟨fs, rest⟩ <;>
        rw [hp] at h <;> simp only [] at h
      · exact absurd h (by simp)
      · by_cases hlen : (fs.map (fun f => String.mk f)).length = n
        · rw [if_pos hlen] at h
          rcases hr : readAllLoopF fuel rest (some n) with e | recs' <;> rw [hr] at h
          · exact absurd h (by simp)
          · simp only [Except.ok.injEq] at h
            subst h
            intro r hmem
            rcases List.mem_cons.mp hmem with h' | h'
            · rw [h']; exact hlen
            · exact ih rest n recs' hr r h'
        · rw [if_neg hlen] at h
          exact absurd h (by simp)

theorem readAll_row_length {data : String} {hd : List String} {rows : List (List String)}
    (h : readAll data = .ok (hd :: rows)) : ∀ r ∈ rows, r.length = hd.length := by
  unfold readAll at h
  rcases hfuel : (preprocess data).length + 1 with _ | fuel
  · exact absurd hfuel (by omega)
  · rw [hfuel] at h
    simp only [readAllLoopF] at h
    rcases hsk : skipEmptyLines (preprocess data) with _ | ⟨c, cs⟩ <;> rw [hsk] at h <;> simp only [] at h
    · exact absurd h (by simp)
    · rcases hp : parseFieldsF ((c :: cs).length + 1) (c :: cs) with e | ⟨fs, rest⟩ <;>
        rw [hp] at h <;> simp only [] at h
      · exact absurd h (by simp)
      · rcases hr : readAllLoopF fuel rest (some (fs.map (fun f => String.mk f)).length)
            with e | recs' <;> rw [hr] at h <;> simp only [] at h
        · exact absurd h (by simp)
        · simp only [Except.ok.injEq, List.cons.injEq] at h
          obtain ⟨hhd, hrows⟩ := h
          subst hhd; subst hrows
          exact readAllLoopF_some_length fuel rest _ _ hr

theorem readAllLoopF_to_tokenize :
    ∀ (fuel : Nat) (s : List Char) (exp : Option Nat) (recs : List (List String)),
      readAllLoopF fuel s exp = .ok recs → tokenizeAllF fuel s = .ok recs := by
  intro fuel
  induction fuel with
  | zero => intro s exp recs h; simp [readAllLoopF] at h
  | succ fuel ih =>
    intro s exp recs h
    simp only [readAllLoopF] at h
    simp only [tokenizeAllF]
    rcases hsk : skipEmptyLines s with _ | ⟨c, cs⟩ <;> rw [hsk] at h <;>
      simp only [] at h ⊢
    · exact h
    · rcases hp : parseFieldsF ((c :: cs).length + 1) (c :: cs) with e | ⟨fs, rest⟩ <;>
        rw [hp] at h <;> simp only [] at h ⊢
      · exact h
      · cases exp with
        | some n =>
          simp only [] at h
          by_cases hlen : (fs.map (fun f => String.mk f)).length = n
          · rw [if_pos hlen] at h
            rcases hr : readAllLoopF fuel rest (some n) with e | recs' <;>
              rw [hr] at h <;> simp only [] at h
            · exact absurd h (by simp)
            · rw [ih rest (some n) recs' hr]
              exact h
          · rw [if_neg hlen] at h
            exact absurd h (by simp)
        | none =>
          simp only [] at h
          rcases hr : readAllLoopF fuel rest (some (fs.map (fun f => String.mk f)).length)
              with e | recs' <;> rw [hr] at h <;> simp only [] at h
          · exact absurd h (by simp)
          · rw [ih rest _ recs' hr]
            exact h

theorem readAll_to_tokenize {data : String} {recs : List (List String)}
    (h : readAll data = .ok recs) : tokenize data = .ok recs :=
  readAllLoopF_to_tokenize _ _ _ _ h

/-! ## The fuel supplied by `readAll` is always sufficient -/

theorem scanBare_cons (c : Char) (rest : List Char) :
    scanBare (c :: rest) =
      if c = ',' then ([], some ',', rest)
      else if c = '\n' then ([], some '\n', rest)
      else (c :: (scanBare rest).1, (scanBare rest).2.1, (scanBare rest).2.2) := rfl

theorem scanBare_rest_le (s : List Char) : (scanBare s).2.2.length ≤ s.length := by
  induction s with
  | nil => simp [scanBare]
  | cons c rest ih =>
    by_cases hc : c = ','
    · rw [scanBare_cons, if_pos hc]
      exact Nat.le_succ _
    · by_cases hn : c = '\n'
      · rw [scanBare_cons, if_neg hc, if_pos hn]
        exact Nat.le_succ _
      · rw [scanBare_cons, if_neg hc, if_neg hn]
        exact le_trans ih (Nat.le_succ _)

theorem scanBare_rest_lt {s : List Char} {t : Char}
    (h : (scanBare s).2.1 = some t) : (scanBare s).2.2.length < s.length := by
  induction s with
  | nil => simp [scanBare] at h
  | cons c rest ih =>
    by_cases hc : c = ','
    · rw [scanBare_cons, if_pos hc]
      exact Nat.lt_succ_self _
    · by_cases hn : c = '\n'
      · rw [scanBare_cons, if_neg hc, if_pos hn]
        exact Nat.lt_succ_self _
      · rw [scanBare_cons, if_neg hc, if_neg hn] at h ⊢
        exact Nat.lt_succ_of_lt (ih h)

theorem scanQuoted_cons (c : Char) (rest : List Char) :
    scanQuoted (c :: rest) =
      (if c = '"' then
        match rest with
        | [] => .ok ([], true, [])
        | c2 :: rest2 =>
          if c2 = '"' then
            match scanQuoted rest2 with
            | .error e => .error e
            | .ok (f, e, r) => .ok ('"' :: f, e, r)
          else if c2 = ',' then .ok ([], false, rest2)
          else if c2 = '\n' then .ok ([], true, rest2)
          else .error .quote
      else
        match scanQuoted rest with
        | .error e => .error e
        | .ok (f, e, r) => .ok (c :: f, e, r)) := by
  rw [scanQuoted.eq_def]

theorem scanQuoted_rest_lt :
    ∀ (n : Nat) (s : List Char), s.length ≤ n →
      ∀ {f : List Char} {e : Bool} {r : List Char},
        scanQuoted s = .ok (f, e, r) → r.length < s.length := by
  intro n
  induction n with
  | zero =>
    intro s hs f e r h
    rw [List.length_eq_zero.mp (Nat.le_zero.mp hs)] at h
    exact absurd h (by simp [scanQuoted])
  | succ n ih =>
    intro s hs f e r h
    match s with
    | [] => exact absurd h (by simp [scanQuoted])
    | c :: rest =>
      rw [scanQuoted_cons] at h
      by_cases hc : c = '"'
      · rw [if_pos hc] at h
        match rest with
        | [] =>
          simp only [] at h
          simp only [Except.ok.injEq, Prod.mk.injEq] at h
          simp [← h.2.2]
        | c2 :: rest2 =>
          simp only [] at h
          by_cases h2 : c2 = '"'
          · rw [if_pos h2] at h
            rcases hsq : scanQuoted rest2 with e' | ⟨f', e', r'⟩ <;> rw [hsq] at h
            · exact absurd h (by simp)
            · simp only [Except.ok.injEq, Prod.mk.injEq] at h
              have hr : r = r' := h.2.2.symm
              have hlen2 : rest2.length ≤ n := by
                simp only [List.length_cons] at hs; omega
              have := ih rest2 hlen2 hsq
              rw [hr]
              simp only [List.length_cons]
              omega
          · rw [if_neg h2] at h
            by_cases hcm : c2 = ','
            · rw [if_pos hcm] at h
              simp only [Except.ok.injEq, Prod.mk.injEq] at h
              rw [← h.2.2]
              simp only [List.length_cons]
              omega
            · rw [if_neg hcm] at h
              by_cases hnl : c2 = '\n'
              · rw [if_pos hnl] at h
                simp only [Except.ok.injEq, Prod.mk.injEq] at h
                rw [← h.2.2]
                simp only [List.length_cons]
                omega
              · rw [if_neg hnl] at h
                exact absurd h (by simp)
      · rw [if_neg hc] at h
        rcases hsq : scanQuoted rest with e' | ⟨f', e', r'⟩ <;> rw [hsq] at h
        · exact absurd h (by simp)
        · simp only [Except.ok.injEq, Prod.mk.injEq] at h
          have hr : r = r' := h.2.2.symm
          have hlen2 : rest.length ≤ n := by
            simp only [List.length_cons] at hs; omega
          have := ih rest hlen2 hsq
          rw [hr]
          simp only [List.length_cons]
          omega

theorem scanQuoted_error :
    ∀ (n : Nat) (s : List Char), s.length ≤ n → ∀ {e : CsvErr},
      scanQuoted s = .error e → e = .quote := by
  intro n
  induction n with
  | zero =>
    intro s hs e h
    rw [List.length_eq_zero.mp (Nat.le_zero.mp hs)] at h
    simp only [scanQuoted, Except.error.injEq] at h
    exact h.symm
  | succ n ih =>
    intro s hs e h
    match s with
    | [] =>
      simp only [scanQuoted, Except.error.injEq] at h
      exact h.symm
    | c :: rest =>
      rw [scanQuoted_cons] at h
      by_cases hc : c = '"'
      · rw [if_pos hc] at h
        match rest with
        | [] =>
          simp only [] at h
          exact absurd h (by simp)
        | c2 :: rest2 =>
          simp only [] at h
          by_cases h2 : c2 = '"'
          · rw [if_pos h2] at h
            rcases hsq : scanQuoted rest2 with e' | ⟨f', e', r'⟩ <;> rw [hsq] at h
            · simp only [Except.error.injEq] at h
              rw [← h]
              exact ih rest2 (by simp only [List.length_cons] at hs; omega) hsq
            · exact absurd h (by simp)
          · rw [if_neg h2] at h
            by_cases hcm : c2 = ','
            · rw [if_pos hcm] at h; exact absurd h (by simp)
            · rw [if_neg hcm] at h
              by_cases hnl : c2 = '\n'
              · rw [if_pos hnl] at h; exact absurd h (by simp)
              · rw [if_neg hnl] at h
                simp only [Except.error.injEq] at h
                exact h.symm
      · rw [if_neg hc] at h
        rcases hsq : scanQuoted rest with e' | ⟨f', e', r'⟩ <;> rw [hsq] at h
        · simp only [Except.error.injEq] at h
          rw [← h]
          exact ih rest (by simp only [List.length_cons] at hs; omega) hsq
        · exact absurd h (by simp)

theorem scanBare_none_rest {s : List Char}
    (h : (scanBare s).2.1 = none) : (scanBare s).2.2 = [] := by
  induction s with
  | nil => simp [scanBare]
  | cons c rest ih =>
    by_cases hc : c = ','
    · rw [scanBare_cons, if_pos hc] at h
      exact absurd h (by simp)
    · by_cases hn : c = '\n'
      · rw [scanBare_cons, if_neg hc, if_pos hn] at h
        exact absurd h (by simp)
      · rw [scanBare_cons, if_neg hc, if_neg hn] at h ⊢
        exact ih h

theorem parseFieldsF_rest :
    ∀ (fuel : Nat) (s : List Char) {fs : List (List Char)} {r : List Char},
      parseFieldsF fuel s = .ok (fs, r) →
      r.length ≤ s.length ∧ (s ≠ [] → r.length < s.length) := by
  intro fuel
  induction fuel with
  | zero => intro s fs r h; simp [parseFieldsF] at h
  | succ fuel ih =>
    intro s fs r h
    match s with
    | [] =>
      have hval : parseFieldsF (fuel + 1) ([] : List Char) = .ok ([[]], []) := rfl
      rw [hval] at h
      simp only [Except.ok.injEq, Prod.mk.injEq] at h
      rw [← h.2]
      exact ⟨le_refl _, fun hne => absurd rfl hne⟩
    | c :: srest =>
      have hcl : (c :: srest).length = srest.length + 1 := rfl
      simp only [parseFieldsF] at h
      by_cases hq : (c :: srest).head? = some '"'
      · rw [if_pos hq] at h
        simp only [List.tail_cons] at h
        rcases hsq : scanQuoted srest with e | ⟨f, eb, rq⟩ <;> rw [hsq] at h
        · simp only [] at h
          exact absurd h (by simp)
        · have hlt : rq.length < srest.length :=
            scanQuoted_rest_lt srest.length srest le_rfl hsq
          cases eb
          · simp only [] at h
            rcases hp2 : parseFieldsF fuel rq with e2 | ⟨fs2, r2⟩ <;> rw [hp2] at h <;>
              simp only [] at h
            · exact absurd h (by simp)
            · simp only [Except.ok.injEq, Prod.mk.injEq] at h
              have hr : r = r2 := h.2.symm
              obtain ⟨ih1, _⟩ := ih rq hp2
              rw [hr]
              exact ⟨by omega, fun _ => by omega⟩
          · simp only [] at h
            simp only [Except.ok.injEq, Prod.mk.injEq] at h
            have hr : r = rq := h.2.symm
            rw [hr]
            exact ⟨by omega, fun _ => by omega⟩
      · rw [if_neg hq] at h
        by_cases hbq : (scanBare (c :: srest)).1.contains '"'
        · rw [if_pos hbq] at h; exact absurd h (by simp)
        · rw [if_neg hbq] at h
          rcases hterm : (scanBare (c :: srest)).2.1 with _ | t <;> rw [hterm] at h <;>
            simp only [] at h
          · simp only [Except.ok.injEq, Prod.mk.injEq] at h
            have hr : r = (scanBare (c :: srest)).2.2 := h.2.symm
            have h0 : (scanBare (c :: srest)).2.2 = [] := scanBare_none_rest hterm
            rw [hr, h0]
            exact ⟨by simp, fun _ => by simp⟩
          · by_cases ht : t = ','
            · rw [if_pos ht] at h
              rcases hp2 : parseFieldsF fuel (scanBare (c :: srest)).2.2 with e2 | ⟨fs2, r2⟩ <;>
                rw [hp2] at h <;> simp only [] at h
              · exact absurd h (by simp)
              · simp only [Except.ok.injEq, Prod.mk.injEq] at h
                have hr : r = r2 := h.2.symm
                obtain ⟨ih1, _⟩ := ih _ hp2
                have hlt := scanBare_rest_lt hterm
                rw [hr]
                exact ⟨by omega, fun _ => by omega⟩
            · rw [if_neg ht] at h
              simp only [Except.ok.injEq, Prod.mk.injEq] at h
              have hr : r = (scanBare (c :: srest)).2.2 := h.2.symm
              have hlt := scanBare_rest_lt hterm
              rw [hr]
              exact ⟨by omega, fun _ => by omega⟩

theorem parseFieldsF_no_outOfFuel :
    ∀ (fuel : Nat) (s : List Char), s.length < fuel →
      parseFieldsF fuel s ≠ .error .outOfFuel := by
  intro fuel
  induction fuel with
  | zero => intro s hs; omega
  | succ fuel ih =>
    intro s hs hcon
    match s with
    | [] =>
      have hval : parseFieldsF (fuel + 1) ([] : List Char) = .ok ([[]], []) := rfl
      rw [hval] at hcon
      exact absurd hcon (by simp)
    | c :: srest =>
      have hcl : (c :: srest).length = srest.length + 1 := rfl
      simp only [parseFieldsF] at hcon
      by_cases hq : (c :: srest).head? = some '"'
      · rw [if_pos hq] at hcon
        simp only [List.tail_cons] at hcon
        rcases hsq : scanQuoted srest with e | ⟨f, eb, rq⟩ <;> rw [hsq] at hcon
        · simp only [] at hcon
          simp only [Except.error.injEq] at hcon
          have : e = .quote := scanQuoted_error srest.length srest le_rfl hsq
          rw [this] at hcon
          exact absurd hcon (by simp)
        · have hlt : rq.length < srest.length :=
            scanQuoted_rest_lt srest.length srest le_rfl hsq
          cases eb
          · simp only [] at hcon
            rcases hp2 : parseFieldsF fuel rq with e2 | ⟨fs2, r2⟩ <;> rw [hp2] at hcon <;>
              simp only [] at hcon
            · simp only [Except.error.injEq] at hcon
              rw [hcon] at hp2
              exact ih rq (by simp only [List.length_cons] at hs; omega) hp2
            · exact absurd hcon (by simp)
          · simp only [] at hcon
            exact absurd hcon (by simp)
      · rw [if_neg hq] at hcon
        by_cases hbq : (scanBare (c :: srest)).1.contains '"'
        · rw [if_pos hbq] at hcon; exact absurd hcon (by simp)
        · rw [if_neg hbq] at hcon
          rcases hterm : (scanBare (c :: srest)).2.1 with _ | t <;> rw [hterm] at hcon <;>
            simp only [] at hcon
          · exact absurd hcon (by simp)
          · by_cases ht : t = ','
            · rw [if_pos ht] at hcon
              rcases hp2 : parseFieldsF fuel (scanBare (c :: srest)).2.2 with e2 | ⟨fs2, r2⟩ <;>
                rw [hp2] at hcon <;> simp only [] at hcon
              · simp only [Except.error.injEq] at hcon
                rw [hcon] at hp2
                have hlt := scanBare_rest_lt hterm
                exact ih _ (by simp only [List.length_cons] at hs; omega) hp2
              · exact absurd hcon (by simp)
            · rw [if_neg ht] at hcon
              exact absurd hcon (by simp)

theorem skipEmptyLines_length_le (s : List Char) :
    (skipEmptyLines s).length ≤ s.length := by
  induction s with
  | nil => simp [skipEmptyLines]
  | cons c rest ih =>
    simp only [skipEmptyLines]
    by_cases hc : c = '\n'
    · rw [if_pos hc]
      exact le_trans ih (Nat.le_succ _)
    · rw [if_neg hc]

theorem readAllLoopF_no_outOfFuel :
    ∀ (fuel : Nat) (s : List Char) (exp : Option Nat), s.length < fuel →
      readAllLoopF fuel s exp ≠ .error .outOfFuel := by
  intro fuel
  induction fuel with
  | zero => intro s exp hs; omega
  | succ fuel ih =>
    intro s exp hs hcon
    simp only [readAllLoopF] at hcon
    rcases hsk : skipEmptyLines s with _ | ⟨c, cs⟩ <;> rw [hsk] at hcon <;>
      simp only [] at hcon
    · exact absurd hcon (by simp)
    · rcases hp : parseFieldsF ((c :: cs).length + 1) (c :: cs) with e | ⟨fs, rest⟩ <;>
        rw [hp] at hcon <;> simp only [] at hcon
      · simp only [Except.error.injEq] at hcon
        rw [hcon] at hp
        exact parseFieldsF_no_outOfFuel _ _ (Nat.lt_succ_self _) hp
      · have hrest : rest.length < (c :: cs).length :=
          (parseFieldsF_rest _ _ hp).2 (by simp)
        have hsklen : (skipEmptyLines s).length ≤ s.length := skipEmptyLines_length_le s
        rw [hsk] at hsklen
        cases exp with
        | some n =>
          simp only [] at hcon
          by_cases hlen : (fs.map (fun f => String.mk f)).length = n
          · rw [if_pos hlen] at hcon
            rcases hr : readAllLoopF fuel rest (some n) with e2 | recs <;> rw [hr] at hcon <;>
              simp only [] at hcon
            · simp only [Except.error.injEq] at hcon
              rw [hcon] at hr
              exact ih rest (some n) (by simp only [List.length_cons] at hrest hsklen ⊢; omega) hr
            · exact absurd hcon (by simp)
          · rw [if_neg hlen] at hcon
            exact absurd hcon (by simp)
        | none =>
          simp only [] at hcon
          rcases hr : readAllLoopF fuel rest (some (fs.map (fun f => String.mk f)).length)
              with e2 | recs <;> rw [hr] at hcon <;> simp only [] at hcon
          · simp only [Except.error.injEq] at hcon
            rw [hcon] at hr
            exact ih rest _ (by simp only [List.length_cons] at hrest hsklen ⊢; omega) hr
          · exact absurd hcon (by simp)

/-- The fuel `readAll` supplies is always sufficient: the `outOfFuel` marker
never escapes, so the fueled loop computes the same total function as Go's
unbounded `ReadAll` loop. -/
theorem readAll_ne_outOfFuel (data : String) : readAll data ≠ .error .outOfFuel :=
  readAllLoopF_no_outOfFuel _ _ none (Nat.lt_succ_self _)

/-! ## Lemmas about the retry loop -/

theorem connectLoop_stepTransport {oracle : Nat → HttpRequest → DoResult}
    {req : HttpRequest} {i fuel : Nat} {m : String}
    (hd : oracle i req = .transportErr m) :
    connectLoop oracle req i (fuel + 1) = ⟨.error (.transport m), [req], []⟩ := by
  simp [connectLoop, hd]

theorem connectLoop_step200 {oracle : Nat → HttpRequest → DoResult}
    {req : HttpRequest} {i fuel : Nat} {body : HttpBody}
    (hd : oracle i req = .resp 200 body) :
    connectLoop oracle req i (fuel + 1) =
      match decodeResponse body with
      | .ok r => ⟨.ok r, [req], []⟩
      | .error m => ⟨.error (.decode m), [req], []⟩ := by
  simp [connectLoop, hd]

theorem connectLoop_step503 {oracle : Nat → HttpRequest → DoResult}
    {req : HttpRequest} {i fuel : Nat} {body : HttpBody}
    {kvs : List (String × Json)} {t : ℚ}
    (hd : oracle i req = .resp 503 body) (hobj : body.objMap = some kvs)
    (hlook : lookupLast kvs "estimated_time" = some (.num t)) :
    connectLoop oracle req i (fuel + 1) =
      ⟨(connectLoop oracle req (i + 1) fuel).result,
       req :: (connectLoop oracle req (i + 1) fuel).requests,
       goSleepNanos t :: (connectLoop oracle req (i + 1) fuel).sleeps⟩ := by
  simp [connectLoop, hd, hobj, hlook]

theorem connectLoop_step503_noEst {oracle : Nat → HttpRequest → DoResult}
    {req : HttpRequest} {i fuel : Nat} {body : HttpBody}
    (hd : oracle i req = .resp 503 body) (hE : estOf body = none) :
    connectLoop oracle req i (fuel + 1) = ⟨.error (.status 503 ""), [req], []⟩ := by
  simp only [estOf] at hE
  rcases hobj : body.objMap with _ | kvs
  · simp [connectLoop, hd, hobj]
  · rw [hobj] at hE
    simp only [] at hE
    rcases hlook : lookupLast kvs "estimated_time" with _ | j
    · simp [connectLoop, hd, hobj, hlook]
    · rw [hlook] at hE
      cases j <;> simp_all [connectLoop, hd, hobj, hlook]

theorem connectLoop_stepOther {oracle : Nat → HttpRequest → DoResult}
    {req : HttpRequest} {i fuel : Nat} {status : Nat} {body : HttpBody}
    (hd : oracle i req = .resp status body) (h200 : status ≠ 200) (h503 : status ≠ 503) :
    connectLoop oracle req i (fuel + 1) = ⟨.error (.status status body.raw), [req], []⟩ := by
  simp [connectLoop, hd, h200, h503]

theorem connectLoop_all503 :
    ∀ (fuel i : Nat) (oracle : Nat → HttpRequest → DoResult) (req : HttpRequest),
      (∀ j, i ≤ j → j < i + fuel → ∃ t, Is503Retry (oracle j req) t) →
      (connectLoop oracle req i fuel).result = .error .maxRetries ∧
      (connectLoop oracle req i fuel).requests = List.replicate fuel req := by
  intro fuel
  induction fuel with
  | zero => intro i oracle req h; exact ⟨rfl, rfl⟩
  | succ fuel ih =>
    intro i oracle req h
    obtain ⟨t, body, kvs, hd, hobj, hlook⟩ := h i (le_refl i) (by omega)
    rw [connectLoop_step503 hd hobj hlook]
    obtain ⟨ih1, ih2⟩ := ih (i + 1) oracle req (fun j hj1 hj2 => h j (by omega) (by omega))
    exact ⟨ih1, by rw [List.replicate_succ]; exact congrArg (req :: ·) ih2⟩

theorem connectLoop_503s_then_200 :
    ∀ (k : Nat) (fuel i : Nat) (oracle : Nat → HttpRequest → DoResult)
      (req : HttpRequest) (r : Response),
      k < fuel →
      (∀ j, j < k → ∃ t, Is503Retry (oracle (i + j) req) t) →
      (∃ body, oracle (i + k) req = .resp 200 body ∧ decodeResponse body = .ok r) →
      (connectLoop oracle req i fuel).result = .ok r ∧
      (connectLoop oracle req i fuel).requests = List.replicate (k + 1) req := by
  intro k
  induction k with
  | zero =>
    intro fuel i oracle req r hk h503 h200
    obtain ⟨body, hd, hdec⟩ := h200
    match fuel with
    | fuel + 1 =>
      rw [Nat.add_zero] at hd
      rw [connectLoop_step200 hd, hdec]
      exact ⟨rfl, rfl⟩
  | succ k ih =>
    intro fuel i oracle req r hk h503 h200
    match fuel with
    | fuel + 1 =>
      obtain ⟨t, body, kvs, hd, hobj, hlook⟩ := h503 0 (Nat.succ_pos k)
      rw [Nat.add_zero] at hd
      rw [connectLoop_step503 hd hobj hlook]
      have h503' : ∀ j, j < k → ∃ t, Is503Retry (oracle (i + 1 + j) req) t := by
        intro j hj
        have := h503 (j + 1) (by omega)
        simpa [Nat.add_assoc, Nat.add_comm 1 j] using this
      have h200' : ∃ body, oracle (i + 1 + k) req = .resp 200 body ∧
          decodeResponse body = .ok r := by
        obtain ⟨b, hb, hbd⟩ := h200
        exact ⟨b, by rw [show i + 1 + k = i + (k + 1) by omega]; exact hb, hbd⟩
      obtain ⟨ih1, ih2⟩ := ih fuel (i + 1) oracle req r (by omega) h503' h200'
      exact ⟨ih1, by rw [List.replicate_succ]; exact congrArg (req :: ·) ih2⟩

/-! ## Round trip of the wire payload -/

theorem setAssoc_append {α : Type} :
    ∀ {m : List (String × α)} {k : String} (v : α), k ∉ m.map Prod.fst →
      setAssoc m k v = m ++ [(k, v)] := by
  intro m
  induction m with
  | nil => intro k v _; rfl
  | cons hd tl ih =>
    intro k v h
    obtain ⟨k', v'⟩ := hd
    simp only [List.map_cons, List.mem_cons] at h
    push_neg at h
    simp only [setAssoc, if_neg (fun he : k' = k => h.1 he.symm), List.cons_append,
      List.cons.injEq, true_and]
    exact ih v h.2

theorem mapM_decodeString (vs : List String) :
    (vs.map Json.str).mapM decodeString = .ok vs := by
  induction vs with
  | nil => rfl
  | cons v tl ih =>
    rw [List.map_cons, List.mapM_cons, ih]
    rfl

theorem decodeList_strs (vs : List String) :
    decodeList decodeString (.arr (vs.map .str)) = .ok vs :=
  mapM_decodeString vs

theorem decodeTable_encode_aux :
    ∀ (tbl acc : Table),
      (∀ k ∈ tbl.map Prod.fst, k ∉ acc.map Prod.fst) →
      (tbl.map Prod.fst).Nodup →
      (tbl.map (fun kv => (kv.1, Json.arr (kv.2.map Json.str)))).foldlM
        (fun acc kv => (decodeList decodeString kv.2).map (setAssoc acc kv.1)) acc =
        .ok (acc ++ tbl) := by
  intro tbl
  induction tbl with
  | nil =>
    intro acc _ _
    simp only [List.map_nil, List.foldlM_nil, List.append_nil]
    rfl
  | cons hd tl ih =>
    intro acc hdisj hnodup
    obtain ⟨k, vs⟩ := hd
    simp only [List.map_cons, List.foldlM_cons]
    rw [decodeList_strs]
    have hk : k ∉ acc.map Prod.fst := hdisj k (by simp)
    have hmap : (Except.ok vs : Except String (List String)).map (setAssoc acc k) =
        .ok (acc ++ [(k, vs)]) := by
      rw [show (Except.ok vs : Except String (List String)).map (setAssoc acc k) =
        .ok (setAssoc acc k vs) from rfl, setAssoc_append vs hk]
    rw [hmap]
    have hbind : ∀ (x : Table) (f : Table → Except String Table),
        (Except.ok x : Except String Table) >>= f = f x := fun x f => rfl
    rw [hbind]
    simp only [List.map_cons, List.nodup_cons] at hnodup
    have hdisj2 : ∀ k2 ∈ tl.map Prod.fst, k2 ∉ (acc ++ [(k, vs)]).map Prod.fst := by
      intro k2 hk2
      simp only [List.map_append, List.mem_append, List.map_cons, List.map_nil,
        List.mem_singleton]
      push_neg
      refine ⟨hdisj k2 (by simp [hk2]), ?_⟩
      intro he
      exact hnodup.1 (he ▸ hk2)
    rw [ih (acc ++ [(k, vs)]) hdisj2 hnodup.2]
    simp

theorem decodeTable_encode (tbl : Table) (h : (tbl.map Prod.fst).Nodup) :
    decodeTable (.obj (tbl.map (fun kv => (kv.1, Json.arr (kv.2.map Json.str))))) = .ok tbl := by
  simpa using decodeTable_encode_aux tbl [] (by simp) h

theorem decodeInputs_encodeInputs (p : Inputs) (h : (p.table.map Prod.fst).Nodup) :
    decodeInputs (encodeInputs p) = .ok p := by
  obtain ⟨tbl, q⟩ := p
  have htbl := decodeTable_encode tbl h
  simp only [encodeInputs, decodeInputs, List.foldlM_cons, List.foldlM_nil]
  rw [htbl]
  rfl

/-! ## Helper lemmas for the claim theorems -/

theorem lastIdxFrom_of_last :
    ∀ (hdr : List String) (i j : Nat) (name : String) (hj : j < hdr.length),
      hdr.get ⟨j, hj⟩ = name →
      (∀ k (hk : k < hdr.length), j < k → hdr.get ⟨k, hk⟩ ≠ name) →
      lastIdxFrom name i hdr = some (i + j) := by
  intro hdr
  induction hdr with
  | nil => intro i j name hj; simp at hj
  | cons col hs ih =>
    intro i j name hj hget hlast
    match j with
    | 0 =>
      have hcol : col = name := hget
      have hnot : name ∉ hs := by
        intro hmem
        obtain ⟨k', hkget⟩ := List.mem_iff_get.mp hmem
        exact hlast (k'.val + 1) (by simp)
          (Nat.succ_pos _) hkget
      simp only [lastIdxFrom]
      rw [lastIdxFrom_eq_none.mpr hnot]
      simp [hcol]
    | j' + 1 =>
      have hj' : j' < hs.length := by simpa using Nat.lt_of_succ_lt_succ hj
      have hget' : hs.get ⟨j', hj'⟩ = name := hget
      have hlast' : ∀ k (hk : k < hs.length), j' < k → hs.get ⟨k, hk⟩ ≠ name := by
        intro k hk hjk
        exact hlast (k + 1) (by simpa using Nat.succ_lt_succ hk) (by omega)
      have hrec := ih (i + 1) j' name hj' hget' hlast'
      simp only [lastIdxFrom, hrec]
      rw [show i + 1 + j' = i + (j' + 1) from by omega]

theorem csvToSlice_ok {data : String} {hd : List String} {rows : List (List String)}
    {t : Table} (hra : readAll data = .ok (hd :: rows)) (hcs : csvToSlice data = .ok t) :
    t = buildTableAux rows 0 hd [] := by
  unfold csvToSlice at hcs
  rw [hra] at hcs
  simp only [Except.ok.injEq] at hcs
  exact hcs.symm

/-! ## The claims -/

/-- C1: when all of the 10 attempts receive a 503 whose body carries a
numeric `estimated_time`, `ConnectAIModel` retries after sleeping up to the
fixed budget of `maxRetries = 10` attempts and then fails with the
max-retries `ConnectionError`; exactly 10 requests are issued, never an
11th. -/
theorem c1_max_retries (oracle : Nat → HttpRequest → DoResult) (payload : Inputs)
    (token : String)
    (h : ∀ j, j < maxRetries → ∃ t, Is503Retry (oracle j (mkRequest payload token)) t) :
    (connectAIModel oracle payload token).result = .error .maxRetries ∧
    (connectAIModel oracle payload token).requests =
      List.replicate maxRetries (mkRequest payload token) := by
  unfold connectAIModel
  exact connectLoop_all503 maxRetries 0 oracle _ (fun j _ h2 => h j (by omega))

/-- C1 witness: a concrete endpoint that always answers 503 with
`estimated_time = 3`. -/
theorem c1_max_retries_witness :
    (connectAIModel
        (fun _ _ => .resp 503 ⟨"model loading", some (.obj [("estimated_time", .num 3)])⟩)
        ⟨[], ""⟩ "tok").result = .error .maxRetries ∧
    (connectAIModel
        (fun _ _ => .resp 503 ⟨"model loading", some (.obj [("estimated_time", .num 3)])⟩)
        ⟨[], ""⟩ "tok").requests = List.replicate maxRetries (mkRequest ⟨[], ""⟩ "tok") :=
  c1_max_retries _ _ _ (fun _ _ =>
    ⟨3, ⟨"model loading", some (.obj [("estimated_time", .num 3)])⟩,
      [("estimated_time", .num 3)], rfl, rfl, rfl⟩)

/-- C3: when the first `k` attempts receive 503-with-numeric-`estimated_time`
and attempt `k` receives a 200 whose body decodes to `r`, every attempt is
issued with the single request value built before the loop — the same
serialized body, carrying the same table and query — and `ConnectAIModel`
returns `r`. -/
theorem c3_retry_same_request (oracle : Nat → HttpRequest → DoResult)
    (payload : Inputs) (token : String) (k : Nat) (r : Response)
    (_hk : 0 < k) (hk10 : k < maxRetries)
    (h503 : ∀ j, j < k → ∃ t, Is503Retry (oracle j (mkRequest payload token)) t)
    (h200 : ∃ body, oracle k (mkRequest payload token) = .resp 200 body ∧
      decodeResponse body = .ok r) :
    (connectAIModel oracle payload token).result = .ok r ∧
    (connectAIModel oracle payload token).requests =
      List.replicate (k + 1) (mkRequest payload token) ∧
    (mkRequest payload token).body = encodeInputs payload := by
  unfold connectAIModel
  obtain ⟨h1, h2⟩ := connectLoop_503s_then_200 k maxRetries 0 oracle _ r hk10
    (fun j hj => by simpa using h503 j hj) (by simpa using h200)
  exact ⟨h1, h2, rfl⟩

/-- C3 witness: one 503 with `estimated_time = 1`, then a 200 whose body
decodes; the run returns the decoded response after exactly one retry and
both attempts carry the same request. -/
theorem c3_retry_same_request_witness :
    (connectAIModel
        (fun i _ => if i = 0
          then .resp 503 ⟨"loading", some (.obj [("estimated_time", .num 1)])⟩
          else .resp 200 ⟨"ans", some (.obj [("answer", .str "42"),
            ("coordinates", .arr [.arr [.num 0, .num 1]]),
            ("cells", .arr [.str "42"]), ("aggregator", .str "NONE")])⟩)
        ⟨[("city", ["A", "B"])], "which city?"⟩ "tok").result =
      .ok ⟨"42", [[0, 1]], ["42"], "NONE"⟩ ∧
    (connectAIModel
        (fun i _ => if i = 0
          then .resp 503 ⟨"loading", some (.obj [("estimated_time", .num 1)])⟩
          else .resp 200 ⟨"ans", some (.obj [("answer", .str "42"),
            ("coordinates", .arr [.arr [.num 0, .num 1]]),
            ("cells", .arr [.str "42"]), ("aggregator", .str "NONE")])⟩)
        ⟨[("city", ["A", "B"])], "which city?"⟩ "tok").requests =
      List.replicate 2 (mkRequest ⟨[("city", ["A", "B"])], "which city?"⟩ "tok") ∧
    (mkRequest ⟨[("city", ["A", "B"])], "which city?"⟩ "tok").body =
      encodeInputs ⟨[("city", ["A", "B"])], "which city?"⟩ :=
  c3_retry_same_request _ _ _ 1 _ (by decide) (by decide)
    (fun j hj => by
      have hj0 : j = 0 := by omega
      subst hj0
      exact ⟨1, ⟨"loading", some (.obj [("estimated_time", .num 1)])⟩,
        [("estimated_time", .num 1)], rfl, rfl, rfl⟩)
    ⟨⟨"ans", some (.obj [("answer", .str "42"),
        ("coordinates", .arr [.arr [.num 0, .num 1]]),
        ("cells", .arr [.str "42"]), ("aggregator", .str "NONE")])⟩, rfl, rfl⟩

/-- C4 counterexample: the endpoint reports `estimated_time = 0.01`, but the
client sleeps 0 nanoseconds — not 0.01 s = 10^7 ns as the claim demands —
because `time.Duration(estimatedTime)` truncates the float64 to an integer
before the multiplication by `time.Second`. -/
theorem c4_counterexample :
    (connectAIModel
        (fun i _ => if i = 0
          then .resp 503
            ⟨"loading", some (.obj [("estimated_time", .num ⟨1, 100, by decide, by decide⟩)])⟩
          else .resp 200 ⟨"ans", some (.obj [("answer", .str "a")])⟩)
        ⟨[], ""⟩ "tok").sleeps = [0] ∧
    ((⟨1, 100, by decide, by decide⟩ : ℚ) = 1 / 100) ∧
    (((0 : ℤ) : ℚ) ≠ (1 / 100 : ℚ) * 1000000000) :=
  ⟨rfl, by rw [Rat.mk'_eq_divInt, Rat.divInt_eq_div]; norm_num, by norm_num⟩

/-- C4 amended: on every 503 response carrying a numeric `estimated_time`
`t` (with retry budget remaining), the suspension before the retry is
exactly `ratTrunc t` whole seconds — the float is truncated toward zero by
the `time.Duration` conversion, so fractional values such as 0.01 produce no
wait at all; there is no cap or jitter beyond this truncation. -/
theorem c4_sleep_truncated (oracle : Nat → HttpRequest → DoResult) (req : HttpRequest)
    (i fuel : Nat) (body : HttpBody) (kvs : List (String × Json)) (t : ℚ)
    (hfuel : 0 < fuel) (hd : oracle i req = .resp 503 body)
    (hobj : body.objMap = some kvs)
    (hlook : lookupLast kvs "estimated_time" = some (.num t)) :
    (connectLoop oracle req i fuel).sleeps.head? = some (ratTrunc t * 1000000000) := by
  match fuel, hfuel with
  | f + 1, _ =>
    rw [connectLoop_step503 hd hobj hlook]
    rfl

/-- C4 witness: `estimated_time = 2.5` yields a sleep of exactly 2 seconds
(2·10^9 ns). -/
theorem c4_sleep_truncated_witness :
    (connectLoop
        (fun _ _ => .resp 503
          ⟨"loading", some (.obj [("estimated_time", .num ⟨5, 2, by decide, by decide⟩)])⟩)
        (mkRequest ⟨[], ""⟩ "tok") 0 maxRetries).sleeps.head? = some 2000000000 := by
  rw [c4_sleep_truncated _ _ 0 maxRetries
    ⟨"loading", some (.obj [("estimated_time", .num ⟨5, 2, by decide, by decide⟩)])⟩
    [("estimated_time", .num ⟨5, 2, by decide, by decide⟩)] ⟨5, 2, by decide, by decide⟩
    (by decide) rfl rfl rfl]
  decide

/-- C8: terminal failures are immediate, with no retry: a transport error
returns that error after a single request; a 503 whose body has no parseable
numeric `estimated_time` fails after a single request; any other non-200,
non-503 status fails after a single request with an error carrying the
status and the raw response body. -/
theorem c8_terminal_failures (oracle : Nat → HttpRequest → DoResult)
    (req : HttpRequest) (i fuel : Nat) :
    (∀ m, oracle i req = .transportErr m →
      connectLoop oracle req i (fuel + 1) = ⟨.error (.transport m), [req], []⟩) ∧
    (∀ body, oracle i req = .resp 503 body → estOf body = none →
      connectLoop oracle req i (fuel + 1) = ⟨.error (.status 503 ""), [req], []⟩) ∧
    (∀ status body, oracle i req = .resp status body → status ≠ 200 → status ≠ 503 →
      connectLoop oracle req i (fuel + 1) = ⟨.error (.status status body.raw), [req], []⟩) :=
  ⟨fun _ hd => connectLoop_stepTransport hd,
   fun _ hd hE => connectLoop_step503_noEst hd hE,
   fun _ _ hd h1 h2 => connectLoop_stepOther hd h1 h2⟩

/-- C8 witness: a refused connection, a 503 without `estimated_time`, and a
403 — each fails on the spot with a single request issued. -/
theorem c8_terminal_failures_witness :
    connectLoop (fun _ _ => .transportErr "dial tcp: connection refused")
      (mkRequest ⟨[], ""⟩ "tok") 0 10 =
      ⟨.error (.transport "dial tcp: connection refused"), [mkRequest ⟨[], ""⟩ "tok"], []⟩ ∧
    connectLoop (fun _ _ => .resp 503 ⟨"busy", some (.obj [("error", .str "loading")])⟩)
      (mkRequest ⟨[], ""⟩ "tok") 0 10 =
      ⟨.error (.status 503 ""), [mkRequest ⟨[], ""⟩ "tok"], []⟩ ∧
    connectLoop (fun _ _ => .resp 403 ⟨"Forbidden", none⟩)
      (mkRequest ⟨[], ""⟩ "tok") 0 10 =
      ⟨.error (.status 403 "Forbidden"), [mkRequest ⟨[], ""⟩ "tok"], []⟩ :=
  ⟨(c8_terminal_failures _ _ 0 9).1 _ rfl,
   (c8_terminal_failures _ _ 0 9).2.1 _ rfl rfl,
   (c8_terminal_failures _ _ 0 9).2.2 403 _ rfl (by decide) (by decide)⟩

/-- C2 counterexample: `"a,b\nx\n"` tokenizes to header `[a, b]` and the
shorter data row `[x]`, yet `CsvToSlice` does not succeed with truncated
columns — the `encoding/csv` reader rejects the ragged row with
`ErrFieldCount` and `CsvToSlice` returns that error. -/
theorem c2_counterexample :
    tokenize "a,b\nx\n" = .ok [["a", "b"], ["x"]] ∧
    csvToSlice "a,b\nx\n" = .error (.csv .fieldCount) := ⟨rfl, rfl⟩

/-- C2 amended: on every input whose tokenized records consist of a header
and some data row with fewer fields, `CsvToSlice` fails (returns an error
and no table): the reader's uniform field-count check fires before the
per-column truncation branch can ever run. -/
theorem c2_short_row_errors (data : String) (hd : List String)
    (rows : List (List String)) (r : List String)
    (htok : tokenize data = .ok (hd :: rows)) (hr : r ∈ rows)
    (hshort : r.length < hd.length) :
    (csvToSlice data).isOk = false := by
  rcases hcs : csvToSlice data with e | t
  · rfl
  · exfalso
    unfold csvToSlice at hcs
    rcases hra : readAll data with e2 | recs <;> rw [hra] at hcs
    · exact absurd hcs (by simp)
    · have htok2 := readAll_to_tokenize hra
      rw [htok] at htok2
      have hrecs : hd :: rows = recs := by simpa using htok2
      subst hrecs
      have hlen := readAll_row_length hra r hr
      omega

/-- C2 witness for the amended claim, at the counterexample input. -/
theorem c2_short_row_errors_witness : (csvToSlice "a,b\nx\n").isOk = false :=
  c2_short_row_errors "a,b\nx\n" ["a", "b"] [["x"]] ["x"] rfl (by simp) (by decide)

/-- C5: for well-formed input whose records are header `hd` plus `R` data
rows, the returned table's key set equals the set of `hd`'s names, every
column's length is at most `R`, and equals `R` whenever the input is
rectangular. -/
theorem c5_table_shape (data : String) (hd : List String) (rows : List (List String))
    (t : Table) (hra : readAll data = .ok (hd :: rows)) (hcs : csvToSlice data = .ok t) :
    (∀ name, name ∈ t.map Prod.fst ↔ name ∈ hd) ∧
    (∀ p ∈ t, p.2.length ≤ rows.length) ∧
    ((∀ r ∈ rows, r.length = hd.length) → ∀ p ∈ t, p.2.length = rows.length) := by
  have ht : t = buildTableAux rows 0 hd [] := csvToSlice_ok hra hcs
  subst ht
  refine ⟨?_, ?_, ?_⟩
  · intro name
    simpa using mem_keys_buildTableAux rows name hd 0 []
  · intro p hp
    rcases mem_buildTableAux hp with hacc | ⟨j, hj2, _, _⟩
    · exact absurd hacc (List.not_mem_nil p)
    · rw [hj2]
      exact buildColumn_length_le j rows
  · intro hrect p hp
    rcases mem_buildTableAux hp with hacc | ⟨j, hj2, _, hjlt⟩
    · exact absurd hacc (List.not_mem_nil p)
    · rw [hj2]
      apply buildColumn_length_eq
      intro r hr
      rw [hrect r hr]
      simpa using hjlt

/-- C5 witness: `"a,b\n1,2\n3,4\n"` parses to two full columns of length
2 over keys a and b. -/
theorem c5_table_shape_witness :
    readAll "a,b\n1,2\n3,4\n" = .ok [["a", "b"], ["1", "2"], ["3", "4"]] ∧
    csvToSlice "a,b\n1,2\n3,4\n" = .ok [("a", ["1", "3"]), ("b", ["2", "4"])] ∧
    ("a" ∈ ([("a", ["1", "3"]), ("b", ["2", "4"])] : Table).map Prod.fst ↔
      "a" ∈ ["a", "b"]) ∧
    (("a", ["1", "3"]) : String × List String).2.length ≤ 2 ∧
    (("b", ["2", "4"]) : String × List String).2.length = 2 := by
  have T := c5_table_shape "a,b\n1,2\n3,4\n" ["a", "b"] [["1", "2"], ["3", "4"]]
    [("a", ["1", "3"]), ("b", ["2", "4"])] rfl rfl
  exact ⟨rfl, rfl, T.1 "a", T.2.1 ("a", ["1", "3"]) (by simp),
    T.2.2 (by decide) ("b", ["2", "4"]) (by simp)⟩

/-- C6: `CsvToSlice` on the empty string, and on any input from which zero
records are parsed, fails with the no-data error; when the tokenizer reports
an error (for instance malformed quoting), that error is returned. -/
theorem c6_parse_failures :
    csvToSlice "" = .error .noData ∧
    (∀ data, readAll data = .ok [] → csvToSlice data = .error .noData) ∧
    (∀ data e, readAll data = .error e → csvToSlice data = .error (.csv e)) := by
  refine ⟨rfl, ?_, ?_⟩
  · intro data h
    simp [csvToSlice, h]
  · intro data e h
    simp [csvToSlice, h]

/-- C6 witness: blank-lines-only input yields the no-data error; an
unterminated quote yields the reader's quote error. -/
theorem c6_parse_failures_witness :
    csvToSlice "\n\n" = .error .noData ∧
    csvToSlice "\"a" = .error (.csv .quote) :=
  ⟨c6_parse_failures.2.1 "\n\n" rfl, c6_parse_failures.2.2 "\"a" .quote rfl⟩

/-- C7: when the header holds a duplicated column name, the returned table
maps that name to exactly one column — the one built from the last
(rightmost) occurrence of the name in the header: last write wins. -/
theorem c7_last_header_wins (data : String) (hd : List String)
    (rows : List (List String)) (t : Table) (name : String) (j : Nat)
    (hra : readAll data = .ok (hd :: rows)) (hcs : csvToSlice data = .ok t)
    (hj : j < hd.length) (hname : hd.get ⟨j, hj⟩ = name)
    (hlast : ∀ k (hk : k < hd.length), j < k → hd.get ⟨k, hk⟩ ≠ name) :
    lookupA t name = some (buildColumn j rows) := by
  have ht : t = buildTableAux rows 0 hd [] := csvToSlice_ok hra hcs
  subst ht
  rw [lookupA_buildTableAux]
  rw [lastIdxFrom_of_last hd 0 j name hj hname hlast]
  simp

/-- C7 witness: header `a,a` over the row `1,2`: the surviving column for
`a` is the one at index 1, holding `2`. -/
theorem c7_last_header_wins_witness :
    lookupA [("a", ["2"])] "a" = some (buildColumn 1 [["1", "2"]]) ∧
    buildColumn 1 [["1", "2"]] = ["2"] :=
  ⟨c7_last_header_wins "a,a\n1,2\n" ["a", "a"] [["1", "2"]] [("a", ["2"])] "a" 1
      rfl rfl (by decide) rfl (fun k hk hlt => absurd hlt
        (by simp only [List.length_cons, List.length_nil] at hk; omega)),
   rfl⟩

/-- C9: serializing the request payload and deserializing the constructed
body reproduces the identical table contents and query string (round trip of
the wire encoding), for every payload whose table has the Go-map invariant
of distinct keys. -/
theorem c9_payload_roundtrip (p : Inputs) (h : (p.table.map Prod.fst).Nodup) :
    decodeInputs (encodeInputs p) = .ok p :=
  decodeInputs_encodeInputs p h

/-- C9 witness: the table from the design document,
`city -> [A, B]`, `kwh -> [10, 20]`, with a query string. -/
theorem c9_payload_roundtrip_witness :
    decodeInputs (encodeInputs ⟨[("city", ["A", "B"]), ("kwh", ["10", "20"])],
      "what is the total kwh?"⟩) =
    .ok ⟨[("city", ["A", "B"]), ("kwh", ["10", "20"])], "what is the total kwh?"⟩ :=
  c9_payload_roundtrip ⟨[("city", ["A", "B"]), ("kwh", ["10", "20"])],
    "what is the total kwh?"⟩ (by decide)

/-- C10: whenever `CsvToSlice` returns a table, every column has exactly the
same length, equal to the number of parsed records minus one (the data-row
count): ragged output never survives the reader's field-count check. -/
theorem c10_rectangular_output (data : String) (recs : List (List String)) (t : Table)
    (hra : readAll data = .ok recs) (hcs : csvToSlice data = .ok t) :
    ∀ p ∈ t, p.2.length = recs.length - 1 := by
  match recs with
  | [] =>
    exfalso
    unfold csvToSlice at hcs
    rw [hra] at hcs
    exact absurd hcs (by simp)
  | hd :: rows =>
    have ht : t = buildTableAux rows 0 hd [] := csvToSlice_ok hra hcs
    subst ht
    intro p hp
    rcases mem_buildTableAux hp with hacc | ⟨j, hj2, _, hjlt⟩
    · exact absurd hacc (List.not_mem_nil p)
    · have hlen := readAll_row_length hra
      rw [hj2, buildColumn_length_eq]
      · simp
      · intro r hr
        rw [hlen r hr]
        simpa using hjlt

/-- C10 witness: both columns of the parsed two-row table have length
`3 - 1 = 2`. -/
theorem c10_rectangular_output_witness :
    (("a", ["1", "3"]) : String × List String).2.length = 3 - 1 ∧
    (("b", ["2", "4"]) : String × List String).2.length = 3 - 1 := by
  have h := c10_rectangular_output "a,b\n1,2\n3,4\n"
    [["a", "b"], ["1", "2"], ["3", "4"]] [("a", ["1", "3"]), ("b", ["2", "4"])] rfl rfl
  exact ⟨h _ (by simp), h _ (by simp)⟩

end Tapas
